import Mathlib

/-!
Shallow embedding of `src/mcmc.py` (PyFAM): an ensemble of adaptive
per-coordinate Metropolis walkers (`walker`) driven by a controller (`MCMC`).

Modelling conventions:
* Python floats are modelled as `ℚ`.  The data `x`, `y` and the `model`
  callable enter the sampler only through the cost function
  (`walker.__init__` builds the default cost `Σ (model(x,p) - y)²` from
  them when `cost is None`), so the embedding carries one shared
  `cost : List ℚ → ℚ` instead of the raw data.
* Randomness is passed in explicitly: each `step` call receives the drawn
  coordinate permutation, the gaussian perturbation for each sub-step and,
  for each sub-step, the logarithm of the uniform draw `u ∈ (0,1)`.  The
  source tests `exp(-c' + c) > u`, which for `u > 0` holds iff
  `c - c' > log u`, so passing `log u` keeps the acceptance test exact and
  decidable over `ℚ` (the measure-zero draw `u = 0` is not modelled).
* `numpy` arrays become `List ℚ`; in-place writes `a[i] = v` become
  `List.set` (out-of-range writes, which raise `IndexError` in the source,
  are no-ops here and are excluded by hypotheses where they matter).
* The Python dict `walker.runs` becomes an insertion-ordered association
  list `List (String × List (List ℚ))`.
-/

namespace PyFAM

/-- A cost function: parameter vector to goodness-of-fit scalar. -/
abbrev Cost := List ℚ → ℚ

/-- State of one `walker` (src/mcmc.py, class `walker`).  `p` is the current
parameter vector, `psig` the per-parameter proposal widths, `c` the cached
cost of the last accepted move, `accept_sample` the per-parameter windows of
0/1 accept outcomes and `runs` the named run logs. -/
structure Walker where
  p : List ℚ
  psig : List ℚ
  c : ℚ
  accept_sample : List (List ℕ)
  runs : List (String × List (List ℚ))
deriving DecidableEq

instance : Inhabited Walker := ⟨⟨[], [], 0, [], []⟩⟩

/-- Dict lookup `runs[run_id]` (`KeyError` modelled as `none`). -/
def findRun (k : String) : List (String × List (List ℚ)) → Option (List (List ℚ))
  | [] => none
  | (k', rows) :: rest => if k = k' then some rows else findRun k rest

/-- The run-recording at the end of `walker.step` (src lines 266-270): create
`runs[run_id]` as a one-row array if absent, else `vstack` the new row on. -/
def appendRecord (k : String) (row : List ℚ) :
    List (String × List (List ℚ)) → List (String × List (List ℚ))
  | [] => [(k, [row])]
  | (k', rows) :: rest =>
      if k = k' then (k', rows ++ [row]) :: rest
      else (k', rows) :: appendRecord k row rest

/-- `walker.n_sample = 25`: capacity of each acceptance window. -/
def n_sample : ℕ := 25

/-- `walker.move_to_p` (src lines 212-217): jump to `p`, caching either the
supplied cost or a fresh evaluation. -/
def move_to_p (cost : Cost) (w : Walker) (p : List ℚ) (p_cost : Option ℚ) : Walker :=
  { w with
      p := p
      c := match p_cost with
           | none => cost p
           | some pc => pc }

/-- `walker.__init__` (src lines 174-195): `psig` defaults to
`np.ones_like(p0)`, the initial cost cache comes from `move_to_p(p0)`, the
runs dict starts empty and each parameter gets an empty acceptance window. -/
def mkWalker (cost : Cost) (p0 : List ℚ) (psig : Option (List ℚ)) : Walker :=
  let psig' := match psig with
               | none => List.replicate p0.length 1
               | some s => s
  { p := p0
    psig := psig'
    c := cost p0
    accept_sample := List.replicate p0.length []
    runs := [] }

/-- The `Update psig[i]` block of `walker.step` (src lines 255-261): once the
acceptance window for `i` holds `n_sample` entries, multiply `psig[i]` by
`(sum/len)/0.5` when any step was accepted (else halve it) and clear the
window.  `0.5` is written `1/2 : ℚ`. -/
def rescaleWindow (i : ℕ) (w1 : Walker) : Walker :=
  if n_sample ≤ (w1.accept_sample.getD i []).length then
    { w1 with
        psig := w1.psig.set i
          (if 0 < (w1.accept_sample.getD i []).sum then
             w1.psig.getD i 0 * (((w1.accept_sample.getD i []).sum : ℚ)
               / (((w1.accept_sample.getD i []).length : ℕ) : ℚ) / (1/2))
           else
             w1.psig.getD i 0 / 2)
        accept_sample := w1.accept_sample.set i [] }
  else w1

/-- One iteration of the inner loop of `walker.step` (src lines 235-261) for
coordinate `i`: perturb coordinate `i` by `dp` (the gaussian draw), accept if
`exp(-c' + c) > u`, i.e. `c - c' > logu`; on rejection reset coordinate `i`
to `orig[i]`, the snapshot taken at the start of the whole `step` call;
append the 0/1 outcome to the window for `i` and run the `psig`-rescaling
block. -/
def substep (cost : Cost) (orig : List ℚ) (w : Walker) (i : ℕ) (dp logu : ℚ) : Walker :=
  let p_prospective := w.p.set i (w.p.getD i 0 + dp)
  let c_prosp := cost p_prospective
  let w1 :=
    if w.c - c_prosp > logu then
      let wA := move_to_p cost w p_prospective (some c_prosp)
      { wA with accept_sample := wA.accept_sample.set i ((wA.accept_sample.getD i []) ++ [1]) }
    else
      { w with
          p := w.p.set i (orig.getD i 0)
          accept_sample := w.accept_sample.set i ((w.accept_sample.getD i []) ++ [0]) }
  rescaleWindow i w1

/-- The full per-coordinate sweep of `walker.step`: fold `substep` over the
drawn permutation, with `orig` the parameter snapshot from the start of the
call. -/
def sweep (cost : Cost) (orig : List ℚ) : Walker → List (ℕ × ℚ × ℚ) → Walker
  | w, [] => w
  | w, (i, dp, lu) :: rest => sweep cost orig (substep cost orig w i dp lu) rest

/-- The accept/reject decisions the sweep makes, in sweep order: the head
decision compares `w.c` (the cached cost at that moment) against the cost of
the perturbed vector, exactly as `substep` does. -/
def sweepDecisions (cost : Cost) (orig : List ℚ) : Walker → List (ℕ × ℚ × ℚ) → List Bool
  | _, [] => []
  | w, (i, dp, lu) :: rest =>
      decide (w.c - cost (w.p.set i (w.p.getD i 0 + dp)) > lu)
        :: sweepDecisions cost orig (substep cost orig w i dp lu) rest

/-- The random draws one `walker.step` call consumes: for each sub-step, the
coordinate index (the drawn permutation, in order), the gaussian perturbation
and the log of the uniform acceptance draw. -/
structure StepRand where
  subs : List (ℕ × ℚ × ℚ)

/-- `walker.step` (src lines 219-270): snapshot `orig_p = p`, sweep all
coordinates, recompute the cached cost from the final `p` (src line 264) and,
when a run id is given, append the record `[c] + p` (`np.insert(p, 0, c)`)
to that run. -/
def step (cost : Cost) (r : StepRand) (run_id : Option String) (w : Walker) : Walker :=
  let w1 := sweep cost w.p w r.subs
  let w2 := { w1 with c := cost w1.p }
  match run_id with
  | none => w2
  | some rid => { w2 with runs := appendRecord rid (w2.c :: w2.p) w2.runs }

/-- The auto-naming loop of `walker.walk` (src lines 273-277): the least `n`
with `"walk" ++ n` unused.  Among `runs.length + 1` candidates at least one
is unused, so the search range suffices. -/
def autoRunId (runs : List (String × List (List ℚ))) : String :=
  match (List.range (runs.length + 1)).find?
      (fun n => (findRun ("walk" ++ toString n) runs).isNone) with
  | some n => "walk" ++ toString n
  | none => "walk" ++ toString (runs.length + 1)

/-- `walker.walk` (src lines 272-280): fix the run id (synthesizing one when
absent) and call `step` that many times; `rands k` supplies the draws of the
`k`-th call. -/
def walker_walk (cost : Cost) (rands : ℕ → StepRand) (nsteps : ℕ)
    (run_id : Option String) (w : Walker) : Walker :=
  let rid := match run_id with
             | none => autoRunId w.runs
             | some k => k
  (List.range nsteps).foldl (fun wa k => step cost (rands k) (some rid) wa) w

/-- Modelled from the spec: `walker.burn`.  `MCMC.burn` (src line 112) calls
`w.burn(nsteps)` on every walker, but the `walker` class in the source
defines no `burn` method; the spec (§4.2, §9) gives the intended semantics —
advance `nSteps` warm-up steps without growing any named run — which is
`nSteps` calls to `step` with no run id. -/
def walker_burn (cost : Cost) (rands : ℕ → StepRand) (nsteps : ℕ) (w : Walker) : Walker :=
  (List.range nsteps).foldl (fun wa k => step cost (rands k) none wa) w

/-- `np.mean(arr, axis=0)` on a rectangular matrix: entry `j` is the mean of
column `j`; the number of columns is read off the first row. -/
def npMeanAxis0 (rows : List (List ℚ)) : List ℚ :=
  (List.range (rows.headD []).length).map
    (fun j => (rows.map (fun r => r.getD j 0)).sum / (rows.length : ℚ))

/-- `walker.get_best_p` (src lines 203-207): `"mean"` returns the
coordinate-wise mean of the full `[cost, p...]` records of `runs[run_id]`,
`"recent"` the last record.  A missing run id (`KeyError`), an empty record
table under `"recent"` (`IndexError`) and an unknown method (Python returns
`None`) are all modelled as `none`. -/
def get_best_p (w : Walker) (run_id : String) (method : String) : Option (List ℚ) :=
  match findRun run_id w.runs with
  | none => none
  | some rows =>
      if method = "mean" then some (npMeanAxis0 rows)
      else if method = "recent" then rows.getLast?
      else none

/-- `walker.get_mean` (src lines 282-283) evaluates `np.mean(self.runs,
axis=0)` where `self.runs` is the runs *dict*.  `np.asanyarray` of a dict is
a 0-dimensional object array, so reducing over `axis=0` raises an axis-
out-of-bounds error for every walker state: the call never returns a value,
modelled as `none`. -/
def get_mean (_w : Walker) : Option (List ℚ) := none

/-- Controller state (src class `MCMC`): the walker collection, the shared
cost function handed to every walker, and the `self.p` attribute that
`move_to_best_walker` assigns (absent, i.e. `none`, until then). -/
structure MCMC where
  walkers : List Walker
  cost : Cost
  p : Option (List ℚ) := none

/-- The in-place update `self.walkers[i] = f(self.walkers[i])` pattern used
by the controller loops (out-of-range `i`, an `IndexError` in the source, is
a no-op here). -/
def updateWalker (m : MCMC) (i : ℕ) (f : Walker → Walker) : MCMC :=
  { m with walkers := m.walkers.set i (f (m.walkers.getD i default)) }

/-- `MCMC.add_walkers` (src lines 44-70): resolve a missing `p0` from the
last walker (raising `ValueError` when there is none), resolve a missing
`psig` from the last walker when one exists, then append `n` fresh walkers
sharing the controller's cost. -/
def MCMC.add_walkers (m : MCMC) (n : ℕ) (p0? psig? : Option (List ℚ)) :
    Except String MCMC :=
  let p0r : Except String (List ℚ) :=
    match p0? with
    | some p => .ok p
    | none =>
        match m.walkers.getLast? with
        | some w => .ok w.p
        | none => .error "Could not determine initial set of parameters. p0 must be given for the first walker."
  match p0r with
  | .error e => .error e
  | .ok p0 =>
      let psig : Option (List ℚ) :=
        match psig? with
        | some s => some s
        | none => (m.walkers.getLast?).map (fun w => w.psig)
      .ok { m with walkers := m.walkers ++ List.replicate n (mkWalker m.cost p0 psig) }

/-- `MCMC.burn` (src lines 105-112): every walker burns for `nsteps` steps
(`rand i` supplies walker `i`'s draws); see `walker_burn` for the
spec-modelled walker-side semantics. -/
def MCMC.burn (m : MCMC) (rand : ℕ → ℕ → StepRand) (nsteps : ℕ) : MCMC :=
  { m with
      walkers := (List.range m.walkers.length).map
        (fun i => walker_burn m.cost (rand i) nsteps (m.walkers.getD i default)) }

/-- The elementwise test `np.all(np.abs(walker_means - mean) < tol)` of
`MCMC.check_convergence` (src line 119). -/
def allWithinTol (means : List (List ℚ)) (grand : List ℚ) (tol : ℚ) : Bool :=
  means.all (fun row =>
    (List.range row.length).all (fun j => decide (|row.getD j 0 - grand.getD j 0| < tol)))

/-- `MCMC.check_convergence` (src lines 114-119): stack every walker's
`get_mean`, take the grand mean over walkers, and test all per-walker
deviations against `tol`.  A failing `get_mean` (see `get_mean`) or an empty
`np.vstack` propagates as `none`. -/
def check_convergence (m : MCMC) (tol : ℚ) : Option Bool := do
  let means ← m.walkers.mapM get_mean
  if means.isEmpty then none
  else
    let grand := npMeanAxis0 means
    some (allWithinTol means grand tol)

/-- `MCMC.walk` (src lines 121-131): `nsteps` rounds, each round invoking
`walker.walk(1, run_id)` on every index in `wi` in order; `rand n i`
supplies the draws of round `n`, walker `i`.  The periodic
`save_walker_history` checkpoint (src line 130) writes files and does not
change sampler state, so it does not appear in the state transition. -/
def MCMC.walk (m : MCMC) (rand : ℕ → ℕ → StepRand) (nsteps : ℕ) (wi : List ℕ)
    (run_id : Option String) : MCMC :=
  (List.range nsteps).foldl
    (fun mc n =>
      wi.foldl
        (fun mc2 i => updateWalker mc2 i (walker_walk mc2.cost (fun _ => rand n i) 1 run_id))
        mc)
    m

/-- The `wi='all'` selection of `MCMC.walk` (src lines 122-123). -/
def selectAll (m : MCMC) : List ℕ := List.range m.walkers.length

/-- The round-robin event order `(round, walker)` that `MCMC.walk` executes:
all selected walkers once per round, round after round. -/
def roundRobin (nsteps : ℕ) (wi : List ℕ) : List (ℕ × ℕ) :=
  (List.range nsteps).flatMap (fun n => wi.map (fun i => (n, i)))

/-- `min` of a nonempty list, as `np.argmin` scans it (src helper for
`move_to_best_walker`). -/
def listMin : List ℚ → ℚ
  | [] => 0
  | [x] => x
  | x :: y :: r => min x (listMin (y :: r))

/-- `np.argmin`: index of the first occurrence of the minimum (`0` on the
empty list, where the source would raise). -/
def idxOfMin : List ℚ → ℕ
  | [] => 0
  | [_] => 0
  | x :: y :: r => if x ≤ listMin (y :: r) then 0 else 1 + idxOfMin (y :: r)

/-- `MCMC.move_to_best_walker` (src lines 72-80): collect every walker's
`get_best_p` record, split it as `best[:,0]` (costs) and `best[:,1:]`
(parameters), pick the walker of minimal cost, then overwrite every walker's
`p` with the winning parameter row and every walker's `psig` with a copy of
the winning walker's widths; finally set the controller's `self.p`.  A
failing `get_best_p` propagates as `none`. -/
def MCMC.move_to_best_walker (m : MCMC) (run_id : String) (method : String) :
    Option MCMC :=
  match m.walkers.mapM (fun w => get_best_p w run_id method) with
  | none => none
  | some best =>
      let best_params := best.map (fun r => r.tail)
      let best_costs := best.map (fun r => r.headD 0)
      let best_wi := idxOfMin best_costs
      some { m with
               walkers := m.walkers.map
                 (fun w => { w with
                               p := best_params.getD best_wi []
                               psig := (m.walkers.getD best_wi default).psig })
               p := some (best_params.getD best_wi []) }

/-- The decimal exponent of `x ≠ 0`: the unique `e` with
`10^e ≤ |x| < 10^(e+1)`, as the `%e` formatter normalizes mantissas. -/
def exp10 (x : ℚ) : ℤ :=
  let n := x.num.natAbs
  let d := x.den
  if d ≤ n then (Nat.log 10 (n / d) : ℤ)
  else -((Nat.clog 10 ((d + n - 1) / n) : ℤ))

/-- The value denoted by the `"%.5e"` rendering of `x` (src line 102):
scientific notation with 5 digits after the point, i.e. `x` rounded to the
nearest multiple of `10^(exp10 x - 5)`.  (The C formatter breaks exact ties
to even; any nearest rounding satisfies the bounds proved below, and the
binary-float quantization of the stored values is below this granularity.) -/
def fmtE5 (x : ℚ) : ℚ :=
  if x = 0 then 0
  else (round (x / (10:ℚ) ^ (exp10 x - 5)) : ℤ) * (10:ℚ) ^ (exp10 x - 5)

/-- The text matrix `np.savetxt(..., runs[run_id], fmt="%.5e")` writes for
one run (src lines 100-103), read back by `np.loadtxt`: one line per record,
each value rendered with `"%.5e"` (the decimal literal in the file is exact,
so reloading yields exactly the formatted value). -/
def saveRun (rows : List (List ℚ)) : List (List ℚ) :=
  rows.map (fun r => r.map fmtE5)

/-! ### Concrete fixtures used to instantiate the theorems -/

/-- A constant-zero cost function (every proposal has likelihood ratio 1). -/
def costZero : Cost := fun _ => 0

/-- A constant `-1` cost function (cached cost 0 makes every proposal an
improvement). -/
def costNegOne : Cost := fun _ => -1

/-- Cost reading off the first parameter. -/
def costHead : Cost := fun l => l.headD 0

/-- A two-parameter walker at the origin with unit widths and empty windows. -/
def wTwo : Walker :=
  { p := [0, 0], psig := [1, 1], c := 0, accept_sample := [[], []], runs := [] }

/-- A one-parameter walker whose single acceptance window already holds 24
accepted outcomes. -/
def wWin : Walker :=
  { p := [0], psig := [1], c := 0, accept_sample := [List.replicate 24 1], runs := [] }

/-- A one-parameter walker with a recorded two-row run named `"r"`. -/
def wRun : Walker :=
  { p := [0], psig := [1], c := 0, accept_sample := [[]],
    runs := [("r", [[1, 5], [3, 7]])] }

/-- Draws for a two-parameter step: coordinate `0` is proposed with `log u`
equal to `-1` (accepted under `costZero`), coordinate `1` with `log u` equal
to `1` (rejected under `costZero`). -/
def randTwo : StepRand := ⟨[(0, 5, -1), (1, 7, 1)]⟩

/-- Draws for a one-parameter step, accepted under `costZero`. -/
def randOne : StepRand := ⟨[(0, 1, -1)]⟩

/-- A controller with no walkers. -/
def mEmpty : MCMC := { walkers := [], cost := costZero }

/-- A controller owning the single walker `wRun`. -/
def mOne : MCMC := { walkers := [wRun], cost := costZero }

/-- A walker with a single one-row run named `"r"`, the cheaper record. -/
def wB0 : Walker :=
  { p := [10], psig := [4], c := 10, accept_sample := [[]], runs := [("r", [[1, 5]])] }

/-- A walker with a single one-row run named `"r"`, the costlier record. -/
def wB1 : Walker :=
  { p := [20], psig := [9], c := 20, accept_sample := [[]], runs := [("r", [[2, 6]])] }

/-- Two walkers with cached costs in sync under `costHead`; walker 0 holds
the cheaper record. -/
def mBest : MCMC := { walkers := [wB0, wB1], cost := costHead }

/-! ### Helper lemmas -/

theorem getD_set_self {α : Type} (l : List α) {i : ℕ} (hi : i < l.length) (v d : α) :
    (l.set i v).getD i d = v := by
  simp [List.getD_eq_getElem?_getD, List.getElem?_set_self hi]

theorem getD_set_ne {α : Type} (l : List α) {i j : ℕ} (h : i ≠ j) (v d : α) :
    (l.set i v).getD j d = l.getD j d := by
  simp [List.getD_eq_getElem?_getD, List.getElem?_set_ne h]

theorem getD_map_tail (l : List (List ℚ)) (j : ℕ) :
    (l.map List.tail).getD j [] = (l.getD j []).tail := by
  induction l generalizing j with
  | nil => simp
  | cons a t ih =>
      cases j with
      | zero => rfl
      | succ n => exact ih n

theorem rescaleWindow_p (i : ℕ) (w1 : Walker) : (rescaleWindow i w1).p = w1.p := by
  unfold rescaleWindow; split <;> rfl

theorem rescaleWindow_c (i : ℕ) (w1 : Walker) : (rescaleWindow i w1).c = w1.c := by
  unfold rescaleWindow; split <;> rfl

theorem rescaleWindow_runs (i : ℕ) (w1 : Walker) : (rescaleWindow i w1).runs = w1.runs := by
  unfold rescaleWindow; split <;> rfl

/-- `substep` written out: the mid-state after the accept/reject branch, fed
to the window-rescaling block. -/
theorem substep_eq (cost : Cost) (orig : List ℚ) (w : Walker) (i : ℕ) (dp lu : ℚ) :
    substep cost orig w i dp lu =
      rescaleWindow i
        (if w.c - cost (w.p.set i (w.p.getD i 0 + dp)) > lu then
           { w with
               p := w.p.set i (w.p.getD i 0 + dp)
               c := cost (w.p.set i (w.p.getD i 0 + dp))
               accept_sample := w.accept_sample.set i ((w.accept_sample.getD i []) ++ [1]) }
         else
           { w with
               p := w.p.set i (orig.getD i 0)
               accept_sample := w.accept_sample.set i ((w.accept_sample.getD i []) ++ [0]) }) := by
  by_cases hacc : w.c - cost (w.p.set i (w.p.getD i 0 + dp)) > lu <;>
    simp only [substep, move_to_p, hacc, if_true, if_false]

theorem substep_p (cost : Cost) (orig : List ℚ) (w : Walker) (i : ℕ) (dp lu : ℚ) :
    (substep cost orig w i dp lu).p =
      if w.c - cost (w.p.set i (w.p.getD i 0 + dp)) > lu
      then w.p.set i (w.p.getD i 0 + dp)
      else w.p.set i (orig.getD i 0) := by
  rw [substep_eq, rescaleWindow_p]
  split <;> rfl

theorem substep_runs (cost : Cost) (orig : List ℚ) (w : Walker) (i : ℕ) (dp lu : ℚ) :
    (substep cost orig w i dp lu).runs = w.runs := by
  rw [substep_eq, rescaleWindow_runs]
  split <;> rfl

theorem substep_p_length (cost : Cost) (orig : List ℚ) (w : Walker) (i : ℕ) (dp lu : ℚ) :
    (substep cost orig w i dp lu).p.length = w.p.length := by
  rw [substep_p]; split <;> simp

theorem sweep_runs (cost : Cost) (orig : List ℚ) (w : Walker) (subs : List (ℕ × ℚ × ℚ)) :
    (sweep cost orig w subs).runs = w.runs := by
  induction subs generalizing w with
  | nil => rfl
  | cons s rest ih => obtain ⟨i, dp, lu⟩ := s; rw [sweep, ih, substep_runs]

theorem sweep_p_length (cost : Cost) (orig : List ℚ) (w : Walker) (subs : List (ℕ × ℚ × ℚ)) :
    (sweep cost orig w subs).p.length = w.p.length := by
  induction subs generalizing w with
  | nil => rfl
  | cons s rest ih => obtain ⟨i, dp, lu⟩ := s; rw [sweep, ih, substep_p_length]

theorem step_p (cost : Cost) (r : StepRand) (rid : Option String) (w : Walker) :
    (step cost r rid w).p = (sweep cost w.p w r.subs).p := by
  cases rid <;> rfl

theorem step_c_resync (cost : Cost) (r : StepRand) (rid : Option String) (w : Walker) :
    (step cost r rid w).c = cost ((step cost r rid w).p) := by
  cases rid <;> rfl

theorem step_p_length (cost : Cost) (r : StepRand) (rid : Option String) (w : Walker) :
    (step cost r rid w).p.length = w.p.length := by
  rw [step_p, sweep_p_length]

theorem step_runs_none (cost : Cost) (r : StepRand) (w : Walker) :
    (step cost r none w).runs = w.runs := by
  simpa [step] using sweep_runs cost w.p w r.subs

theorem step_runs_some (cost : Cost) (r : StepRand) (rid : String) (w : Walker) :
    (step cost r (some rid) w).runs =
      appendRecord rid ((step cost r (some rid) w).c :: (step cost r (some rid) w).p) w.runs := by
  simp [step, sweep_runs]

theorem findRun_appendRecord_self (k : String) (row : List ℚ)
    (runs : List (String × List (List ℚ))) :
    findRun k (appendRecord k row runs) = some ((findRun k runs).getD [] ++ [row]) := by
  induction runs with
  | nil => simp [appendRecord, findRun]
  | cons e rest ih =>
      obtain ⟨k', rows⟩ := e
      by_cases hk : k = k' <;> simp [appendRecord, findRun, hk, ih]

theorem walker_walk_zero (cost : Cost) (rands : ℕ → StepRand) (rid : String) (w : Walker) :
    walker_walk cost rands 0 (some rid) w = w := rfl

theorem walker_walk_succ (cost : Cost) (rands : ℕ → StepRand) (K : ℕ) (rid : String)
    (w : Walker) :
    walker_walk cost rands (K + 1) (some rid) w
      = step cost (rands K) (some rid) (walker_walk cost rands K (some rid) w) := by
  simp [walker_walk, List.range_succ, List.foldl_append]

theorem walker_burn_succ (cost : Cost) (rands : ℕ → StepRand) (K : ℕ) (w : Walker) :
    walker_burn cost rands (K + 1) w
      = step cost (rands K) none (walker_burn cost rands K w) := by
  simp [walker_burn, List.range_succ, List.foldl_append]

theorem walker_burn_runs (cost : Cost) (rands : ℕ → StepRand) (K : ℕ) (w : Walker) :
    (walker_burn cost rands K w).runs = w.runs := by
  induction K with
  | zero => rfl
  | succ k ih => rw [walker_burn_succ, step_runs_none, ih]

theorem rescaleWindow_trigger (i : ℕ) (w1 : Walker)
    (hψ : i < w1.psig.length) (ha : i < w1.accept_sample.length)
    (htrig : n_sample ≤ (w1.accept_sample.getD i []).length) :
    (rescaleWindow i w1).accept_sample.getD i [] = [] ∧
    (rescaleWindow i w1).psig.getD i 0 =
      (if 0 < (w1.accept_sample.getD i []).sum then
        w1.psig.getD i 0 * (((w1.accept_sample.getD i []).sum : ℚ)
          / (((w1.accept_sample.getD i []).length : ℕ) : ℚ) / (1/2))
      else w1.psig.getD i 0 / 2) := by
  unfold rescaleWindow
  rw [if_pos htrig]
  exact ⟨getD_set_self _ ha _ _, getD_set_self _ hψ _ _⟩

theorem rescale_after_append (w1 : Walker) (i : ℕ) (old : List ℕ) (out : ℕ) (ψ : ℚ)
    (hψ1 : i < w1.psig.length) (ha1 : i < w1.accept_sample.length)
    (hwin : w1.accept_sample.getD i [] = old ++ [out])
    (hold : old.length = 24)
    (hpe : w1.psig.getD i 0 = ψ) :
    (rescaleWindow i w1).accept_sample.getD i [] = [] ∧
    (rescaleWindow i w1).psig.getD i 0 =
      (if 0 < old.sum + out then ψ * (((old.sum + out : ℕ) : ℚ) / 25 / (1/2)) else ψ / 2) := by
  have htrig : n_sample ≤ (w1.accept_sample.getD i []).length := by
    rw [hwin]; simp [hold, n_sample]
  obtain ⟨h1, h2⟩ := rescaleWindow_trigger i w1 hψ1 ha1 htrig
  refine ⟨h1, ?_⟩
  rw [h2, hwin, hpe]
  have hsum : (old ++ [out]).sum = old.sum + out := by simp
  have hlen : (old ++ [out]).length = 25 := by simp [hold]
  rw [hsum, hlen]
  norm_num

theorem walker_walk_growth (cost : Cost) (rands : ℕ → StepRand) (rid : String)
    (w : Walker) (K : ℕ) :
    ((findRun rid ((walker_walk cost rands K (some rid) w).runs)).getD []).length
        = ((findRun rid w.runs).getD []).length + K ∧
    (walker_walk cost rands K (some rid) w).p.length = w.p.length ∧
    (∀ row ∈ (findRun rid ((walker_walk cost rands K (some rid) w).runs)).getD [],
      row ∈ (findRun rid w.runs).getD [] ∨ row.length = 1 + w.p.length) := by
  induction K with
  | zero => exact ⟨rfl, rfl, fun row h => Or.inl h⟩
  | succ K ih =>
      obtain ⟨hlen, hp, hrows⟩ := ih
      refine ⟨?_, ?_, ?_⟩
      · rw [walker_walk_succ, step_runs_some, findRun_appendRecord_self]
        simp only [Option.getD_some, List.length_append, List.length_singleton, hlen]
        omega
      · rw [walker_walk_succ, step_p_length, hp]
      · intro row hrow
        rw [walker_walk_succ, step_runs_some, findRun_appendRecord_self] at hrow
        simp only [Option.getD_some, List.mem_append, List.mem_singleton] at hrow
        rcases hrow with h | h
        · exact hrows row h
        · right
          rw [h, List.length_cons, step_p_length, hp, Nat.add_comm]

theorem getD_map_range {α : Type} (n : ℕ) (f : ℕ → α) (i : ℕ) (d : α) :
    ((List.range n).map f).getD i d = if i < n then f i else d := by
  by_cases h : i < n
  · rw [if_pos h]
    rw [List.getD_eq_getElem?_getD, List.getElem?_map, List.getElem?_range h]
    rfl
  · rw [if_neg h]
    rw [List.getD_eq_getElem?_getD, List.getElem?_eq_none (by simpa using h)]
    rfl

theorem getD_zero_eq_headD (r : List ℚ) : r.getD 0 0 = r.headD 0 := by
  cases r <;> rfl

theorem exp10_def (x : ℚ) :
    exp10 x =
      if x.den ≤ x.num.natAbs then (Nat.log 10 (x.num.natAbs / x.den) : ℤ)
      else -((Nat.clog 10 ((x.den + x.num.natAbs - 1) / x.num.natAbs) : ℤ)) := rfl

theorem exp10_spec (x : ℚ) (hx : x ≠ 0) :
    (10:ℚ) ^ exp10 x ≤ |x| ∧ |x| < (10:ℚ) ^ (exp10 x + 1) := by
  have hdpos : 0 < x.den := x.den_pos
  have hd0 : (0:ℚ) < (x.den : ℚ) := by exact_mod_cast hdpos
  have hnpos : 0 < x.num.natAbs := Int.natAbs_pos.mpr (Rat.num_ne_zero.mpr hx)
  have habs : |x| = (x.num.natAbs : ℚ) / (x.den : ℚ) := by
    rw [Int.cast_natAbs, Int.cast_abs, ← abs_of_pos hd0, ← abs_div, Rat.num_div_den]
  rw [exp10_def]
  by_cases hcase : x.den ≤ x.num.natAbs
  · rw [if_pos hcase]
    have hq1 : 1 ≤ x.num.natAbs / x.den := (Nat.one_le_div_iff hdpos).mpr hcase
    have hlog_le : 10 ^ Nat.log 10 (x.num.natAbs / x.den) ≤ x.num.natAbs / x.den :=
      Nat.pow_log_le_self 10 (by omega)
    have hlog_lt : x.num.natAbs / x.den
        < 10 ^ (Nat.log 10 (x.num.natAbs / x.den) + 1) :=
      Nat.lt_pow_succ_log_self (by norm_num) _
    have hqle : ((x.num.natAbs / x.den : ℕ) : ℚ) ≤ (x.num.natAbs : ℚ) / (x.den : ℚ) := by
      rw [le_div_iff₀ hd0]
      exact_mod_cast Nat.div_mul_le_self x.num.natAbs x.den
    have hnlt : x.num.natAbs < (x.num.natAbs / x.den + 1) * x.den := by
      have hmod := Nat.div_add_mod x.num.natAbs x.den
      have hmlt : x.num.natAbs % x.den < x.den := Nat.mod_lt _ hdpos
      have hsm : (x.num.natAbs / x.den + 1) * x.den
          = x.num.natAbs / x.den * x.den + x.den := Nat.succ_mul _ _
      have hcm : x.den * (x.num.natAbs / x.den) = x.num.natAbs / x.den * x.den :=
        Nat.mul_comm _ _
      omega
    have hqlt : (x.num.natAbs : ℚ) / (x.den : ℚ) < ((x.num.natAbs / x.den : ℕ) : ℚ) + 1 := by
      rw [div_lt_iff₀ hd0]
      exact_mod_cast hnlt
    constructor
    · rw [habs]
      calc (10:ℚ) ^ ((Nat.log 10 (x.num.natAbs / x.den) : ℕ) : ℤ)
          = ((10 ^ Nat.log 10 (x.num.natAbs / x.den) : ℕ) : ℚ) := by
            rw [zpow_natCast]
            push_cast
            ring
        _ ≤ ((x.num.natAbs / x.den : ℕ) : ℚ) := by exact_mod_cast hlog_le
        _ ≤ _ := hqle
    · rw [habs]
      calc (x.num.natAbs : ℚ) / (x.den : ℚ)
          < ((x.num.natAbs / x.den : ℕ) : ℚ) + 1 := hqlt
        _ ≤ ((10 ^ (Nat.log 10 (x.num.natAbs / x.den) + 1) : ℕ) : ℚ) := by
            exact_mod_cast hlog_lt
        _ = (10:ℚ) ^ ((Nat.log 10 (x.num.natAbs / x.den) : ℤ) + 1) := by
            have hcast : (Nat.log 10 (x.num.natAbs / x.den) : ℤ) + 1
                = ((Nat.log 10 (x.num.natAbs / x.den) + 1 : ℕ) : ℤ) := by push_cast; ring
            rw [hcast, zpow_natCast]
            push_cast
            ring
  · rw [if_neg hcase]
    have hnd : x.num.natAbs < x.den := by omega
    have hc2 : 2 ≤ (x.den + x.num.natAbs - 1) / x.num.natAbs := by
      rw [Nat.le_div_iff_mul_le hnpos]
      omega
    have hcub : (x.den + x.num.natAbs - 1) / x.num.natAbs * x.num.natAbs
        ≤ x.den + x.num.natAbs - 1 := Nat.div_mul_le_self _ _
    have hclb : x.den ≤ (x.den + x.num.natAbs - 1) / x.num.natAbs * x.num.natAbs := by
      have hmod := Nat.div_add_mod (x.den + x.num.natAbs - 1) x.num.natAbs
      have hmlt : (x.den + x.num.natAbs - 1) % x.num.natAbs < x.num.natAbs :=
        Nat.mod_lt _ hnpos
      have hcm : x.num.natAbs * ((x.den + x.num.natAbs - 1) / x.num.natAbs)
          = (x.den + x.num.natAbs - 1) / x.num.natAbs * x.num.natAbs := Nat.mul_comm _ _
      omega
    have hf1 : 0 < Nat.clog 10 ((x.den + x.num.natAbs - 1) / x.num.natAbs) :=
      Nat.clog_pos (by norm_num) hc2
    have hfup : (x.den + x.num.natAbs - 1) / x.num.natAbs
        ≤ 10 ^ Nat.clog 10 ((x.den + x.num.natAbs - 1) / x.num.natAbs) :=
      Nat.le_pow_clog (by norm_num) _
    have hflow : 10 ^ (Nat.clog 10 ((x.den + x.num.natAbs - 1) / x.num.natAbs) - 1)
        < (x.den + x.num.natAbs - 1) / x.num.natAbs :=
      Nat.pow_pred_clog_lt_self (by norm_num) (by omega)
    have hlow_nat : x.den ≤ x.num.natAbs
        * 10 ^ Nat.clog 10 ((x.den + x.num.natAbs - 1) / x.num.natAbs) := by
      calc x.den ≤ (x.den + x.num.natAbs - 1) / x.num.natAbs * x.num.natAbs := hclb
        _ ≤ 10 ^ Nat.clog 10 ((x.den + x.num.natAbs - 1) / x.num.natAbs)
            * x.num.natAbs := Nat.mul_le_mul hfup (Nat.le_refl _)
        _ = x.num.natAbs
            * 10 ^ Nat.clog 10 ((x.den + x.num.natAbs - 1) / x.num.natAbs) :=
          Nat.mul_comm _ _
    have hup_nat : x.num.natAbs
        * 10 ^ Nat.clog 10 ((x.den + x.num.natAbs - 1) / x.num.natAbs)
        < 10 * x.den := by
      have h2 : ((x.den + x.num.natAbs - 1) / x.num.natAbs - 1) * x.num.natAbs
          < x.den := by
        have hs := Nat.sub_one_mul ((x.den + x.num.natAbs - 1) / x.num.natAbs)
          x.num.natAbs
        omega
      have h3 : x.num.natAbs
          * 10 ^ (Nat.clog 10 ((x.den + x.num.natAbs - 1) / x.num.natAbs) - 1)
          < x.den := by
        have h10 : 10 ^ (Nat.clog 10 ((x.den + x.num.natAbs - 1) / x.num.natAbs) - 1)
            ≤ (x.den + x.num.natAbs - 1) / x.num.natAbs - 1 := by omega
        calc x.num.natAbs
            * 10 ^ (Nat.clog 10 ((x.den + x.num.natAbs - 1) / x.num.natAbs) - 1)
            ≤ x.num.natAbs * ((x.den + x.num.natAbs - 1) / x.num.natAbs - 1) :=
              Nat.mul_le_mul (Nat.le_refl _) h10
          _ = ((x.den + x.num.natAbs - 1) / x.num.natAbs - 1) * x.num.natAbs :=
              Nat.mul_comm _ _
          _ < x.den := h2
      have hfsplit : 10 ^ Nat.clog 10 ((x.den + x.num.natAbs - 1) / x.num.natAbs)
          = 10 ^ (Nat.clog 10 ((x.den + x.num.natAbs - 1) / x.num.natAbs) - 1) * 10 := by
        conv_lhs => rw [show Nat.clog 10 ((x.den + x.num.natAbs - 1) / x.num.natAbs)
          = (Nat.clog 10 ((x.den + x.num.natAbs - 1) / x.num.natAbs) - 1) + 1 by omega]
        rw [Nat.pow_succ]
      calc x.num.natAbs
          * 10 ^ Nat.clog 10 ((x.den + x.num.natAbs - 1) / x.num.natAbs)
          = x.num.natAbs
            * 10 ^ (Nat.clog 10 ((x.den + x.num.natAbs - 1) / x.num.natAbs) - 1)
            * 10 := by rw [hfsplit, Nat.mul_assoc]
        _ < x.den * 10 := Nat.mul_lt_mul_of_lt_of_le h3 (Nat.le_refl 10) (by norm_num)
        _ = 10 * x.den := Nat.mul_comm _ _
    constructor
    · rw [habs, zpow_neg, zpow_natCast, inv_eq_one_div,
        div_le_div_iff₀ (by positivity) hd0, one_mul]
      exact_mod_cast hlow_nat
    · rw [habs]
      have hexp : -((Nat.clog 10 ((x.den + x.num.natAbs - 1) / x.num.natAbs) : ℕ) : ℤ) + 1
          = 1 - ((Nat.clog 10 ((x.den + x.num.natAbs - 1) / x.num.natAbs) : ℕ) : ℤ) := by
        ring
      rw [hexp, zpow_sub₀ (by norm_num : (10:ℚ) ≠ 0), zpow_one, zpow_natCast,
        div_lt_div_iff₀ hd0 (by positivity)]
      exact_mod_cast hup_nat

theorem fmtE5_close (x : ℚ) : |fmtE5 x - x| ≤ |x| / 200000 := by
  by_cases hx : x = 0
  · subst hx
    simp [fmtE5]
  · rw [fmtE5, if_neg hx]
    obtain ⟨hlo, hhi⟩ := exp10_spec x hx
    have hu0 : (0:ℚ) < (10:ℚ) ^ (exp10 x - 5) := by positivity
    have hfactor : ((round (x / (10:ℚ) ^ (exp10 x - 5)) : ℤ) : ℚ) * (10:ℚ) ^ (exp10 x - 5) - x
        = (((round (x / (10:ℚ) ^ (exp10 x - 5)) : ℤ) : ℚ) - x / (10:ℚ) ^ (exp10 x - 5))
          * (10:ℚ) ^ (exp10 x - 5) := by
      field_simp
    have hround : |((round (x / (10:ℚ) ^ (exp10 x - 5)) : ℤ) : ℚ)
        - x / (10:ℚ) ^ (exp10 x - 5)| ≤ 1 / 2 := by
      rw [abs_sub_comm]
      exact abs_sub_round _
    have h1 : |((round (x / (10:ℚ) ^ (exp10 x - 5)) : ℤ) : ℚ) * (10:ℚ) ^ (exp10 x - 5) - x|
        ≤ (10:ℚ) ^ (exp10 x - 5) / 2 := by
      rw [hfactor, abs_mul, abs_of_pos hu0]
      calc |((round (x / (10:ℚ) ^ (exp10 x - 5)) : ℤ) : ℚ) - x / (10:ℚ) ^ (exp10 x - 5)|
            * (10:ℚ) ^ (exp10 x - 5)
          ≤ (1 / 2) * (10:ℚ) ^ (exp10 x - 5) :=
            mul_le_mul_of_nonneg_right hround (le_of_lt hu0)
        _ = (10:ℚ) ^ (exp10 x - 5) / 2 := by ring
    have h2 : (10:ℚ) ^ (exp10 x - 5) / 2 ≤ |x| / 200000 := by
      have hu : (10:ℚ) ^ (exp10 x - 5) = (10:ℚ) ^ (exp10 x) / 100000 := by
        rw [zpow_sub₀ (by norm_num : (10:ℚ) ≠ 0)]
        norm_num
      rw [hu]
      linarith
    exact le_trans h1 h2

theorem saveRun_getD (rows : List (List ℚ)) (k : ℕ) :
    (saveRun rows).getD k [] = (rows.getD k []).map fmtE5 := by
  induction rows generalizing k with
  | nil => cases k <;> rfl
  | cons r rest ih =>
      cases k with
      | zero => rfl
      | succ k' => exact ih k'

/-! ### Claim theorems -/

/-- C1: `MCMC.check_convergence` never returns a boolean, for any controller
state and tolerance: `walker.get_mean` applies `np.mean(..., axis=0)` to the
runs dict itself (which raises), and with no walkers the `np.vstack` of an
empty sequence raises, so the comparison
`np.all(|walkerMeans - grandMean| < tol)` claimed by the spec is never
reached. -/
theorem check_convergence_never_returns (m : MCMC) (tol : ℚ) :
    check_convergence m tol = none := by
  obtain ⟨ws, cst, pp⟩ := m
  cases ws with
  | nil => rfl
  | cons w rest => rfl

/-- C4: `MCMC.burn` advances every walker by `nsteps` steps through the
spec-modelled `walker_burn` (the source calls a `walker.burn` method that the
`walker` class never defines), and no walker's named runs change: burning
records nothing, by `step`'s behaviour with no run id. -/
theorem burn_advances_without_recording (m : MCMC) (rand : ℕ → ℕ → StepRand)
    (nsteps : ℕ) :
    (MCMC.burn m rand nsteps).walkers.length = m.walkers.length ∧
    (∀ i, i < m.walkers.length →
      (MCMC.burn m rand nsteps).walkers.getD i default =
        walker_burn m.cost (rand i) nsteps (m.walkers.getD i default)) ∧
    (∀ i, ((MCMC.burn m rand nsteps).walkers.getD i default).runs =
      (m.walkers.getD i default).runs) := by
  refine ⟨by simp [MCMC.burn], ?_, ?_⟩
  · intro i hi
    simp only [MCMC.burn]
    rw [getD_map_range, if_pos hi]
  · intro i
    by_cases hi : i < m.walkers.length
    · simp only [MCMC.burn]
      rw [getD_map_range, if_pos hi, walker_burn_runs]
    · simp only [MCMC.burn]
      rw [getD_map_range, if_neg hi,
        List.getD_eq_getElem?_getD, List.getElem?_eq_none (by simpa using hi)]
      rfl

theorem burn_advances_witness :
    0 < mOne.walkers.length ∧
    (MCMC.burn mOne (fun _ _ => randOne) 2).walkers.getD 0 default =
      walker_burn mOne.cost ((fun _ _ => randOne) 0) 2 (mOne.walkers.getD 0 default) ∧
    ((MCMC.burn mOne (fun _ _ => randOne) 2).walkers.getD 0 default).runs =
      (mOne.walkers.getD 0 default).runs := by
  refine ⟨by decide,
    (burn_advances_without_recording mOne (fun _ _ => randOne) 2).2.1 0 (by decide),
    (burn_advances_without_recording mOne (fun _ _ => randOne) 2).2.2 0⟩

/-- C5: `get_best_p(runId, "mean")` returns the coordinate-wise mean over the
full `[cost, p...]` records of `runs[runId]` — a record of width `1 + k`
whose leading entry is the mean of the costs, not a bare parameter vector —
and `get_best_p(runId, "recent")` returns the most recently appended full
record. -/
theorem get_best_p_full_records (w : Walker) (rid : String) (rows : List (List ℚ))
    (k : ℕ) (hfind : findRun rid w.runs = some rows) (hne : rows ≠ [])
    (hrect : ∀ r ∈ rows, r.length = 1 + k) :
    get_best_p w rid "mean" = some (npMeanAxis0 rows) ∧
    (npMeanAxis0 rows).length = 1 + k ∧
    (npMeanAxis0 rows).headD 0 = (rows.map (fun r => r.headD 0)).sum / (rows.length : ℚ) ∧
    get_best_p w rid "recent" = some (rows.getLast hne) := by
  have hw : (rows.headD []).length = 1 + k := by
    cases rows with
    | nil => exact absurd rfl hne
    | cons r0 rest => exact hrect r0 (by simp)
  refine ⟨by simp [get_best_p, hfind], ?_, ?_, ?_⟩
  · rw [npMeanAxis0, List.length_map, List.length_range, hw]
  · rw [npMeanAxis0, hw, Nat.add_comm 1 k, List.range_succ_eq_map]
    simp only [List.map_cons, List.headD_cons]
    have hmaps : rows.map (fun r => r.getD 0 0) = rows.map (fun r => r.headD 0) :=
      List.map_congr_left (fun r _ => getD_zero_eq_headD r)
    rw [hmaps]
  · rw [get_best_p, hfind]
    norm_num
    exact List.getLast?_eq_getLast rows hne

theorem walker_walk_one (cost : Cost) (rands : ℕ → StepRand) (rid : String)
    (w : Walker) :
    walker_walk cost rands 1 (some rid) w = step cost (rands 0) (some rid) w := rfl

theorem roundRobin_succ (n : ℕ) (wi : List ℕ) :
    roundRobin (n + 1) wi = roundRobin n wi ++ wi.map (fun i => (n, i)) := by
  simp [roundRobin, List.range_succ]

theorem MCMC_walk_succ (m : MCMC) (rand : ℕ → ℕ → StepRand) (n : ℕ) (wi : List ℕ)
    (rid : Option String) :
    MCMC.walk m rand (n + 1) wi rid =
      wi.foldl
        (fun mc2 i => updateWalker mc2 i (walker_walk mc2.cost (fun _ => rand n i) 1 rid))
        (MCMC.walk m rand n wi rid) := by
  simp [MCMC.walk, List.range_succ, List.foldl_append]

theorem walk_one_round (m : MCMC) (wi : List ℕ) (rid : String) (f : ℕ → StepRand) :
    wi.foldl
        (fun mc2 i => updateWalker mc2 i (walker_walk mc2.cost (fun _ => f i) 1 (some rid)))
        m
      = wi.foldl (fun mc2 i => updateWalker mc2 i (step mc2.cost (f i) (some rid))) m := by
  induction wi generalizing m with
  | nil => rfl
  | cons i rest ih =>
      have h1 : updateWalker m i (walker_walk m.cost (fun _ => f i) 1 (some rid))
          = updateWalker m i (step m.cost (f i) (some rid)) := by
        rw [updateWalker, updateWalker, walker_walk_one]
      rw [List.foldl_cons, List.foldl_cons, h1, ih]

/-- C6: with a run id supplied, `MCMC.walk(nsteps, wi, runId)` executes the
round-robin schedule — `nsteps` rounds, each invoking `step` exactly once on
every selected walker in order, round after round rather than one walker to
completion — and every one of those step events records under the one common
run id. -/
theorem walk_round_robin_common_run (m : MCMC) (rand : ℕ → ℕ → StepRand)
    (nsteps : ℕ) (wi : List ℕ) (rid : String) :
    MCMC.walk m rand nsteps wi (some rid) =
      (roundRobin nsteps wi).foldl
        (fun mc e => updateWalker mc e.2 (step mc.cost (rand e.1 e.2) (some rid))) m := by
  induction nsteps with
  | zero => rfl
  | succ n ih =>
      rw [MCMC_walk_succ, ih, roundRobin_succ, List.foldl_append, List.foldl_map,
        walk_one_round]

/-- C9: calling `add_walkers` with `p0` omitted while the controller has no
walkers fails with the configuration `ValueError` — the call returns the
error, so no walker is added and nothing is retried — while with at least one
existing walker the omitted `p0` is inherited from the last walker's current
position by every walker added. -/
theorem add_walkers_first_requires_p0 (m : MCMC) (n : ℕ) (psig0 : Option (List ℚ)) :
    (m.walkers = [] →
      MCMC.add_walkers m n none psig0 =
        .error "Could not determine initial set of parameters. p0 must be given for the first walker.") ∧
    (∀ wlast, m.walkers.getLast? = some wlast →
      ∃ m', MCMC.add_walkers m n none psig0 = .ok m' ∧
        m'.walkers.length = m.walkers.length + n ∧
        ∀ i, m.walkers.length ≤ i → i < m'.walkers.length →
          (m'.walkers.getD i default).p = wlast.p) := by
  constructor
  · intro hw
    simp [MCMC.add_walkers, hw]
  · intro wlast hlast
    have hres : ∃ ps, MCMC.add_walkers m n none psig0 =
        .ok { m with walkers := m.walkers ++ List.replicate n (mkWalker m.cost wlast.p ps) } := by
      cases psig0 with
      | none => exact ⟨some wlast.psig, by simp [MCMC.add_walkers, hlast]⟩
      | some s => exact ⟨some s, by simp [MCMC.add_walkers, hlast]⟩
    obtain ⟨ps, hres⟩ := hres
    refine ⟨_, hres, by simp, ?_⟩
    intro i hge hlt
    simp only [List.length_append, List.length_replicate] at hlt
    rw [List.getD_eq_getElem?_getD, List.getElem?_append_right hge,
      List.getElem?_replicate, if_pos (by omega)]
    rfl

theorem add_walkers_first_requires_p0_witness :
    mEmpty.walkers = [] ∧
    MCMC.add_walkers mEmpty 1 none none =
      .error "Could not determine initial set of parameters. p0 must be given for the first walker." ∧
    mOne.walkers.getLast? = some wRun ∧
    (∃ m', MCMC.add_walkers mOne 2 none none = .ok m' ∧
      m'.walkers.length = mOne.walkers.length + 2 ∧
      ∀ i, mOne.walkers.length ≤ i → i < m'.walkers.length →
        (m'.walkers.getD i default).p = wRun.p) :=
  ⟨rfl, (add_walkers_first_requires_p0 mEmpty 1 none).1 rfl, rfl,
    (add_walkers_first_requires_p0 mOne 2 none).2 wRun rfl⟩

theorem getD_map_of_lt {α β : Type} (l : List α) (f : α → β) (j : ℕ) (d : α) (d' : β)
    (hj : j < l.length) :
    (l.map f).getD j d' = f (l.getD j d) := by
  rw [List.getD_eq_getElem?_getD, List.getElem?_map, List.getD_eq_getElem?_getD,
    List.getElem?_eq_getElem hj]
  rfl

/-- C10: `move_to_best_walker` rewrites every walker's position `p` (to the
parameter part of the winning record) and proposal widths `psig` (to the
winning walker's) but leaves every walker's cached cost `c` unchanged; hence
a moved walker whose cost was in sync and whose new position costs
differently now has `c ≠ cost(p)`, the first coordinate proposal of its next
`step` call computes its acceptance decision against that stale cached `c`,
and only the end-of-sweep recomputation makes `c = cost(p)` hold again. -/
theorem move_to_best_leaves_cost_stale (m : MCMC) (rid mth : String) (j : ℕ)
    (best : List (List ℚ)) (m' : MCMC)
    (hbest : m.walkers.mapM (fun w => get_best_p w rid mth) = some best)
    (hm' : MCMC.move_to_best_walker m rid mth = some m')
    (hj : j < m.walkers.length) :
    ((m'.walkers.getD j default).c = (m.walkers.getD j default).c) ∧
    ((m'.walkers.getD j default).p =
      (best.getD (idxOfMin (best.map (fun r => r.headD 0))) []).tail) ∧
    ((m'.walkers.getD j default).psig =
      (m.walkers.getD (idxOfMin (best.map (fun r => r.headD 0))) default).psig) ∧
    ((m.walkers.getD j default).c = m.cost (m.walkers.getD j default).p →
      m.cost (m'.walkers.getD j default).p ≠ m.cost (m.walkers.getD j default).p →
      (m'.walkers.getD j default).c ≠ m.cost (m'.walkers.getD j default).p) ∧
    (∀ i dp lu rest,
      (sweepDecisions m.cost (m'.walkers.getD j default).p (m'.walkers.getD j default)
          ((i, dp, lu) :: rest)).headD false
        = decide ((m'.walkers.getD j default).c -
            m.cost ((m'.walkers.getD j default).p.set i
              ((m'.walkers.getD j default).p.getD i 0 + dp)) > lu)) ∧
    (∀ r rid', (step m.cost r rid' (m'.walkers.getD j default)).c =
      m.cost ((step m.cost r rid' (m'.walkers.getD j default)).p)) := by
  have key : MCMC.move_to_best_walker m rid mth =
      some { m with
               walkers := m.walkers.map
                 (fun w => { w with
                               p := (best.map (fun r => r.tail)).getD
                                 (idxOfMin (best.map (fun r => r.headD 0))) []
                               psig := (m.walkers.getD
                                 (idxOfMin (best.map (fun r => r.headD 0))) default).psig })
               p := some ((best.map (fun r => r.tail)).getD
                 (idxOfMin (best.map (fun r => r.headD 0))) []) } := by
    unfold MCMC.move_to_best_walker
    rw [hbest]
  have hmeq : m' =
      { m with
          walkers := m.walkers.map
            (fun w => { w with
                          p := (best.map (fun r => r.tail)).getD
                            (idxOfMin (best.map (fun r => r.headD 0))) []
                          psig := (m.walkers.getD
                            (idxOfMin (best.map (fun r => r.headD 0))) default).psig })
          p := some ((best.map (fun r => r.tail)).getD
            (idxOfMin (best.map (fun r => r.headD 0))) []) } :=
    (Option.some.inj (key.symm.trans hm')).symm
  have hproj : (m'.walkers.getD j default) =
      { (m.walkers.getD j default) with
          p := (best.map (fun r => r.tail)).getD
            (idxOfMin (best.map (fun r => r.headD 0))) []
          psig := (m.walkers.getD
            (idxOfMin (best.map (fun r => r.headD 0))) default).psig } := by
    rw [hmeq]
    exact getD_map_of_lt m.walkers _ j default default hj
  have hc : (m'.walkers.getD j default).c = (m.walkers.getD j default).c := by
    rw [hproj]
  refine ⟨hc, ?_, ?_, ?_, ?_, ?_⟩
  · rw [hproj]
    exact getD_map_tail best _
  · rw [hproj]
  · intro hsync hdiff heq
    exact hdiff (heq.symm.trans (hc.trans hsync))
  · intro i dp lu rest
    rfl
  · intro r rid'
    exact step_c_resync m.cost r rid' _

theorem move_to_best_leaves_cost_stale_witness :
    (mBest.walkers.mapM (fun w => get_best_p w "r" "mean") = some [[1, 5], [2, 6]] ∧
     1 < mBest.walkers.length ∧
     (mBest.walkers.getD 1 default).c = mBest.cost (mBest.walkers.getD 1 default).p) ∧
    (∃ m', MCMC.move_to_best_walker mBest "r" "mean" = some m' ∧
      (m'.walkers.getD 1 default).c = (mBest.walkers.getD 1 default).c ∧
      (m'.walkers.getD 1 default).c ≠ mBest.cost (m'.walkers.getD 1 default).p) := by
  have h0 : get_best_p wB0 "r" "mean" = some [1, 5] := by
    norm_num [get_best_p, wB0, findRun, npMeanAxis0, List.range_succ]
  have h1 : get_best_p wB1 "r" "mean" = some [2, 6] := by
    norm_num [get_best_p, wB1, findRun, npMeanAxis0, List.range_succ]
  have hbest : mBest.walkers.mapM (fun w => get_best_p w "r" "mean") =
      some [[1, 5], [2, 6]] := by
    simp [mBest, List.mapM.loop, h0, h1]
  have hsome : MCMC.move_to_best_walker mBest "r" "mean" =
      some { mBest with
               walkers := mBest.walkers.map
                 (fun w => { w with
                               p := (([[1, 5], [2, 6]] : List (List ℚ)).map
                                 (fun r => r.tail)).getD
                                 (idxOfMin (([[1, 5], [2, 6]] : List (List ℚ)).map
                                   (fun r => r.headD 0))) []
                               psig := (mBest.walkers.getD
                                 (idxOfMin (([[1, 5], [2, 6]] : List (List ℚ)).map
                                   (fun r => r.headD 0))) default).psig })
               p := some ((([[1, 5], [2, 6]] : List (List ℚ)).map
                 (fun r => r.tail)).getD
                 (idxOfMin (([[1, 5], [2, 6]] : List (List ℚ)).map
                   (fun r => r.headD 0))) []) } := by
    unfold MCMC.move_to_best_walker
    rw [hbest]
  have hsync : (mBest.walkers.getD 1 default).c =
      mBest.cost (mBest.walkers.getD 1 default).p := by
    simp [mBest, wB1, costHead]
  obtain ⟨m', hm'⟩ : ∃ m', MCMC.move_to_best_walker mBest "r" "mean" = some m' :=
    ⟨_, hsome⟩
  have h := move_to_best_leaves_cost_stale mBest "r" "mean" 1 [[1, 5], [2, 6]] m'
    hbest hm' (by decide)
  have hpv : (m'.walkers.getD 1 default).p = [5] := by
    rw [h.2.1]
    norm_num [idxOfMin, listMin]
  have hdiff : mBest.cost (m'.walkers.getD 1 default).p ≠
      mBest.cost (mBest.walkers.getD 1 default).p := by
    rw [hpv]
    norm_num [mBest, wB1, costHead]
  exact ⟨⟨hbest, by decide, hsync⟩, ⟨m', hm', h.1, h.2.2.2.1 hsync hdiff⟩⟩

theorem get_best_p_full_records_witness :
    (findRun "r" wRun.runs = some [[1, 5], [3, 7]] ∧
     ([[1, 5], [3, 7]] : List (List ℚ)) ≠ [] ∧
     (∀ r ∈ ([[1, 5], [3, 7]] : List (List ℚ)), r.length = 1 + 1)) ∧
    get_best_p wRun "r" "mean" = some (npMeanAxis0 [[1, 5], [3, 7]]) ∧
    (npMeanAxis0 [[1, 5], [3, 7]]).length = 1 + 1 ∧
    get_best_p wRun "r" "recent" = some [3, 7] := by
  have h := get_best_p_full_records wRun "r" [[1, 5], [3, 7]] 1 rfl
    (by simp) (by decide)
  exact ⟨⟨rfl, by simp, by decide⟩, h.1, h.2.1, h.2.2.2⟩

/-- C8: saving a run writes a plain-text matrix with one line per record in
which every value is rendered by `"%.5e"` (modelled by `fmtE5`: scientific
notation, 5 digits after the point), so line counts and per-line widths match
the run, and reloading reproduces every value to 5 significant digits: each
nonzero value comes back with relative error at most `1/200000 = 0.5e-5`
(zero comes back exactly). -/
theorem save_roundtrip_5sig (rows : List (List ℚ)) :
    (saveRun rows).length = rows.length ∧
    (∀ k, (saveRun rows).getD k [] = (rows.getD k []).map fmtE5) ∧
    (∀ k, ((saveRun rows).getD k []).length = (rows.getD k []).length) ∧
    (∀ r ∈ rows, ∀ j,
      |(r.map fmtE5).getD j 0 - r.getD j 0| ≤ |r.getD j 0| / 200000) := by
  refine ⟨by simp [saveRun], saveRun_getD rows, ?_, ?_⟩
  · intro k
    rw [saveRun_getD]
    simp
  · intro r _ j
    by_cases hj : j < r.length
    · rw [getD_map_of_lt r fmtE5 j 0 0 hj]
      exact fmtE5_close _
    · rw [List.getD_eq_getElem?_getD, List.getElem?_eq_none (by simpa using hj),
        List.getD_eq_getElem?_getD r, List.getElem?_eq_none (by omega : r.length ≤ j)]
      simp

theorem save_roundtrip_5sig_witness :
    ([1, 5] ∈ ([[1, 5]] : List (List ℚ))) ∧
    (saveRun [[1, 5]]).length = 1 ∧
    (saveRun [[1, 5]]).getD 0 [] = [fmtE5 1, fmtE5 5] ∧
    |fmtE5 5 - 5| ≤ |(5:ℚ)| / 200000 := by
  have h := save_roundtrip_5sig [[1, 5]]
  have hmem : [1, 5] ∈ ([[1, 5]] : List (List ℚ)) := by simp
  refine ⟨hmem, by simpa using h.1, by simpa using h.2.1 0, ?_⟩
  have hb := h.2.2.2 [1, 5] hmem 1
  simpa using hb

/-- C2: in `walker.step`, after appending the accept/reject outcome for
parameter index `i`, when the acceptance window for `i` reaches length
`n_sample = 25` the walker rescales `psig[i]` and clears that window: with
`s > 0` acceptances in the window, `psig[i]` is multiplied by `(s/25)/0.5` —
so with all 25 accepted it exactly doubles — and with `s = 0` acceptances it
is exactly halved. -/
theorem window_rescale_on_full (cost : Cost) (orig : List ℚ) (w : Walker) (i : ℕ)
    (dp lu : ℚ) (out s : ℕ)
    (hψ : i < w.psig.length) (ha : i < w.accept_sample.length)
    (hlen : (w.accept_sample.getD i []).length = n_sample - 1)
    (hout : out = if w.c - cost (w.p.set i (w.p.getD i 0 + dp)) > lu then 1 else 0)
    (hs : s = (w.accept_sample.getD i []).sum + out) :
    (substep cost orig w i dp lu).accept_sample.getD i [] = [] ∧
    (substep cost orig w i dp lu).psig.getD i 0 =
      (if 0 < s then w.psig.getD i 0 * ((s : ℚ) / 25 / (1/2)) else w.psig.getD i 0 / 2) ∧
    (s = 25 → (substep cost orig w i dp lu).psig.getD i 0 = 2 * w.psig.getD i 0) ∧
    (s = 0 → (substep cost orig w i dp lu).psig.getD i 0 = w.psig.getD i 0 / 2) := by
  have hlen24 : (w.accept_sample.getD i []).length = 24 := by
    simpa [n_sample] using hlen
  rw [substep_eq]
  by_cases hacc : w.c - cost (w.p.set i (w.p.getD i 0 + dp)) > lu
  · rw [if_pos hacc]
    have hs' : s = (w.accept_sample.getD i []).sum + 1 := by
      rw [hs, hout, if_pos hacc]
    obtain ⟨h1, h2⟩ := rescale_after_append
      { w with
          p := w.p.set i (w.p.getD i 0 + dp)
          c := cost (w.p.set i (w.p.getD i 0 + dp))
          accept_sample := w.accept_sample.set i ((w.accept_sample.getD i []) ++ [1]) }
      i (w.accept_sample.getD i []) 1
      (w.psig.getD i 0) hψ (by simpa using ha) (getD_set_self _ ha _ _) hlen24 rfl
    rw [← hs'] at h2
    refine ⟨h1, h2, ?_, ?_⟩
    · intro h25
      rw [h2, h25]
      norm_num [mul_comm]
    · intro h0
      rw [h2, h0]
      norm_num
  · rw [if_neg hacc]
    have hs' : s = (w.accept_sample.getD i []).sum + 0 := by
      rw [hs, hout, if_neg hacc]
    obtain ⟨h1, h2⟩ := rescale_after_append
      { w with
          p := w.p.set i (orig.getD i 0)
          accept_sample := w.accept_sample.set i ((w.accept_sample.getD i []) ++ [0]) }
      i (w.accept_sample.getD i []) 0
      (w.psig.getD i 0) hψ (by simpa using ha) (getD_set_self _ ha _ _) hlen24 rfl
    rw [← hs'] at h2
    refine ⟨h1, h2, ?_, ?_⟩
    · intro h25
      rw [h2, h25]
      norm_num [mul_comm]
    · intro h0
      rw [h2, h0]
      norm_num

theorem window_rescale_on_full_witness :
    ((0 : ℕ) < wWin.psig.length ∧ (0 : ℕ) < wWin.accept_sample.length ∧
     (wWin.accept_sample.getD 0 []).length = n_sample - 1 ∧
     (1 : ℕ) = (if wWin.c - costNegOne (wWin.p.set 0 (wWin.p.getD 0 0 + 0)) > 0 then 1 else 0) ∧
     (25 : ℕ) = (wWin.accept_sample.getD 0 []).sum + 1) ∧
    (substep costNegOne wWin.p wWin 0 0 0).psig.getD 0 0 = 2 * wWin.psig.getD 0 0 := by
  refine ⟨⟨by decide, by decide, by decide, by simp [wWin, costNegOne], by decide⟩, ?_⟩
  exact (window_rescale_on_full costNegOne wWin.p wWin 0 0 0 1 25
    (by decide) (by decide) (by decide) (by simp [wWin, costNegOne]) (by decide)).2.2.1 rfl

/-- C7: for any walker and any run identifier not yet present, `K` calls to
`step(runId)` leave `runs[runId]` with exactly `K` rows, each of width
`1 + len(p)` (cost followed by the parameters); moreover every single
`step(runId)` call appends exactly one record. -/
theorem step_run_growth (cost : Cost) (rands : ℕ → StepRand) (K : ℕ) (rid : String)
    (w : Walker) (hfresh : findRun rid w.runs = none) :
    ((findRun rid ((walker_walk cost rands K (some rid) w).runs)).getD []).length = K ∧
    (∀ row ∈ (findRun rid ((walker_walk cost rands K (some rid) w).runs)).getD [],
      row.length = 1 + w.p.length) ∧
    (∀ (w' : Walker) (r : StepRand),
      ((findRun rid ((step cost r (some rid) w').runs)).getD []).length
        = ((findRun rid w'.runs).getD []).length + 1) := by
  obtain ⟨hlen, _hp, hrows⟩ := walker_walk_growth cost rands rid w K
  refine ⟨?_, ?_, ?_⟩
  · rw [hlen, hfresh]
    simp
  · intro row h
    rcases hrows row h with hmem | hl
    · rw [hfresh] at hmem
      simp at hmem
    · exact hl
  · intro w' r
    rw [step_runs_some, findRun_appendRecord_self]
    simp

theorem substep_p_getD_ne (cost : Cost) (orig : List ℚ) (w : Walker) (i j : ℕ)
    (dp lu : ℚ) (hij : i ≠ j) :
    (substep cost orig w i dp lu).p.getD j 0 = w.p.getD j 0 := by
  rw [substep_p]
  split <;> exact getD_set_ne _ hij _ _

theorem sweep_p_getD_not_mem (cost : Cost) (orig : List ℚ) (subs : List (ℕ × ℚ × ℚ))
    (w : Walker) (j : ℕ) (h : j ∉ subs.map (fun s => s.1)) :
    (sweep cost orig w subs).p.getD j 0 = w.p.getD j 0 := by
  induction subs generalizing w with
  | nil => rfl
  | cons s rest ih =>
      obtain ⟨i, dp, lu⟩ := s
      simp only [List.map_cons, List.mem_cons, not_or] at h
      rw [sweep, ih _ h.2, substep_p_getD_ne _ _ _ _ _ _ _ (Ne.symm h.1)]

theorem sweep_rollback_aux (cost : Cost) (orig : List ℚ) (subs : List (ℕ × ℚ × ℚ)) :
    ∀ (w : Walker),
      (subs.map (fun s => s.1)).Nodup →
      (∀ s ∈ subs, s.1 < w.p.length) →
      (∀ s ∈ subs, w.p.getD s.1 0 = orig.getD s.1 0) →
      ∀ k, k < subs.length →
        ((sweepDecisions cost orig w subs).getD k false = true →
          (sweep cost orig w subs).p.getD (subs.getD k (0,0,0)).1 0 =
            orig.getD (subs.getD k (0,0,0)).1 0 + (subs.getD k (0,0,0)).2.1) ∧
        ((sweepDecisions cost orig w subs).getD k false = false →
          (sweep cost orig w subs).p.getD (subs.getD k (0,0,0)).1 0 =
            orig.getD (subs.getD k (0,0,0)).1 0) := by
  induction subs with
  | nil =>
      intro w _ _ _ k hk
      simp at hk
  | cons s rest ih =>
      obtain ⟨i, dp, lu⟩ := s
      intro w hnd hb hpre k hk
      have hnd0 : i ∉ rest.map (fun s => s.1) ∧ (rest.map (fun s => s.1)).Nodup := by
        simpa [List.nodup_cons] using hnd
      have hilen : i < w.p.length := hb (i, dp, lu) (by simp)
      have hipre : w.p.getD i 0 = orig.getD i 0 := hpre (i, dp, lu) (by simp)
      cases k with
      | zero =>
          simp only [List.getD_cons_zero]
          refine ⟨fun hdec => ?_, fun hdec => ?_⟩
          · have hcond : w.c - cost (w.p.set i (w.p.getD i 0 + dp)) > lu := by
              simpa [sweepDecisions] using hdec
            rw [sweep, sweep_p_getD_not_mem _ _ _ _ _ hnd0.1, substep_p, if_pos hcond,
              getD_set_self _ hilen, hipre]
          · have hcond : ¬(w.c - cost (w.p.set i (w.p.getD i 0 + dp)) > lu) := by
              simpa [sweepDecisions] using hdec
            rw [sweep, sweep_p_getD_not_mem _ _ _ _ _ hnd0.1, substep_p, if_neg hcond,
              getD_set_self _ hilen]
      | succ k' =>
          have hb' : ∀ s ∈ rest, s.1 < (substep cost orig w i dp lu).p.length := by
            intro s hs
            rw [substep_p_length]
            exact hb s (by simp [hs])
          have hpre' : ∀ s ∈ rest,
              (substep cost orig w i dp lu).p.getD s.1 0 = orig.getD s.1 0 := by
            intro s hs
            have hne : i ≠ s.1 := fun e => hnd0.1 (e ▸ List.mem_map_of_mem _ hs)
            rw [substep_p_getD_ne _ _ _ _ _ _ _ hne]
            exact hpre s (by simp [hs])
          have hk' : k' < rest.length := by simpa using hk
          have hrec := ih (substep cost orig w i dp lu) hnd0.2 hb' hpre' k' hk'
          simpa only [sweep, sweepDecisions, List.getD_cons_succ] using hrec

/-- C3: within a single `step` call that sweeps the coordinates in a
duplicate-free order, a coordinate whose proposal was rejected ends the call
at its value from the start of the whole call (the `orig_p` snapshot), while
a coordinate whose proposal was accepted ends at its accepted change
`orig_p[i] + dp`, untouched by later sub-steps of the same sweep. -/
theorem step_rollback_to_orig (cost : Cost) (w : Walker) (r : StepRand)
    (rid : Option String) (k : ℕ)
    (hnd : (r.subs.map (fun s => s.1)).Nodup)
    (hb : ∀ s ∈ r.subs, s.1 < w.p.length)
    (hk : k < r.subs.length) :
    ((sweepDecisions cost w.p w r.subs).getD k false = true →
      (step cost r rid w).p.getD (r.subs.getD k (0,0,0)).1 0 =
        w.p.getD (r.subs.getD k (0,0,0)).1 0 + (r.subs.getD k (0,0,0)).2.1) ∧
    ((sweepDecisions cost w.p w r.subs).getD k false = false →
      (step cost r rid w).p.getD (r.subs.getD k (0,0,0)).1 0 =
        w.p.getD (r.subs.getD k (0,0,0)).1 0) := by
  rw [step_p]
  exact sweep_rollback_aux cost w.p r.subs w hnd hb (fun s _ => rfl) k hk

theorem step_rollback_to_orig_witness :
    ((randTwo.subs.map (fun s => s.1)).Nodup ∧
     (∀ s ∈ randTwo.subs, s.1 < wTwo.p.length) ∧
     0 < randTwo.subs.length ∧ 1 < randTwo.subs.length) ∧
    (sweepDecisions costZero wTwo.p wTwo randTwo.subs).getD 0 false = true ∧
    (sweepDecisions costZero wTwo.p wTwo randTwo.subs).getD 1 false = false ∧
    (step costZero randTwo none wTwo).p.getD (randTwo.subs.getD 0 (0,0,0)).1 0 =
      wTwo.p.getD (randTwo.subs.getD 0 (0,0,0)).1 0 + (randTwo.subs.getD 0 (0,0,0)).2.1 ∧
    (step costZero randTwo none wTwo).p.getD (randTwo.subs.getD 1 (0,0,0)).1 0 =
      wTwo.p.getD (randTwo.subs.getD 1 (0,0,0)).1 0 := by
  have hacc : (sweepDecisions costZero wTwo.p wTwo randTwo.subs).getD 0 false = true := by
    simp [sweepDecisions, substep, rescaleWindow, move_to_p, wTwo, randTwo, costZero, n_sample]
  have hrej : (sweepDecisions costZero wTwo.p wTwo randTwo.subs).getD 1 false = false := by
    simp [sweepDecisions, substep, rescaleWindow, move_to_p, wTwo, randTwo, costZero, n_sample]
  refine ⟨⟨by decide, by decide, by decide, by decide⟩, hacc, hrej, ?_, ?_⟩
  · exact (step_rollback_to_orig costZero wTwo randTwo none 0
      (by decide) (by decide) (by decide)).1 hacc
  · exact (step_rollback_to_orig costZero wTwo randTwo none 1
      (by decide) (by decide) (by decide)).2 hrej

theorem step_run_growth_witness :
    findRun "r" wTwo.runs = none ∧
    ((findRun "r" ((walker_walk costZero (fun _ => randTwo) 2 (some "r")
        wTwo).runs)).getD []).length = 2 := by
  refine ⟨rfl, ?_⟩
  exact (step_run_growth costZero (fun _ => randTwo) 2 "r" wTwo rfl).1

end PyFAM
